import Mathlib

/-!
Verification of the update-brave self-updating installer (src/main.rs).

The embedding models Rust strings as lists of characters (`Str`), filesystem
paths as lists of path components (`Path`), and the filesystem as an
association list from paths to nodes (`FS`).  The pure release-selection logic
(`get_latest_release`) and the version probe (`get_installed_version`) are
translated directly from the source; the driver `main` is embedded as `run`,
a function over an explicit filesystem state together with an environment
(`Env`) that supplies the catalog page, the downloaded archive's entry list,
and the outcome (success or failure) of every fallible I/O primitive the
program performs, in program order.
-/

namespace UpdateBrave

/-- Rust strings are modelled as lists of characters. -/
abbrev Str : Type := List Char

/-- Rust str::starts_with for a literal pattern. -/
def startsWith (pre s : Str) : Bool := decide (pre <+: s)

/-- Rust str::ends_with for a literal pattern. -/
def endsWith (suf s : Str) : Bool := decide (suf <:+ s)

/-- Rust str::trim_start: remove leading whitespace characters. -/
def trimLeft (s : Str) : Str := s.dropWhile Char.isWhitespace

/-- Rust str::trim_end: remove trailing whitespace characters. -/
def trimRight (s : Str) : Str := (s.reverse.dropWhile Char.isWhitespace).reverse

/-- Rust str::trim: remove leading and trailing whitespace characters. -/
def trim (s : Str) : Str := trimRight (trimLeft s)

/-- The literal release-name filter of get_latest_release. -/
def releaseLit : Str := "Release".data

/-- The error message of get_latest_release when nothing matches. -/
def noReleaseFound : Str := "No Release Found".data

/-- A downloadable asset of a catalog release (octocrab asset). -/
structure Asset where
  name : Str
  browser_download_url : Str

/-- A release as returned by the catalog listing (octocrab release):
the name is optional in the API model, and the release carries its assets. -/
structure CatalogRelease where
  name : Option Str
  assets : List Asset

/-- The Release value produced by get_latest_release (src/main.rs lines 25-28). -/
structure Release where
  name : Str
  url : Str
deriving DecidableEq

/-- Program arguments: the target installation directory (as a list of path
components, since the filesystem model is component based) and the asset
filename suffix filter. -/
structure Args where
  target : List Str
  suffix : Str

/-- The inner asset loop of get_latest_release (src/main.rs lines 42-49):
first asset whose filename ends with the configured suffix. -/
def findAsset (suffix : Str) : List Asset → Option Asset
  | [] => none
  | a :: rest => if endsWith suffix a.name then some a else findAsset suffix rest

/-- get_latest_release (src/main.rs lines 30-54), with the already-fetched
catalog page passed in as a list (network failure of the page fetch itself is
modelled by Env.catalogOk in `run`).  Releases are scanned in catalog order;
a release with no name, or a name not starting with "Release", is skipped; the
first qualifying release whose assets contain a filename ending with the
suffix yields an Ok value with the trimmed name and that asset's download URL;
otherwise the scan continues, and an exhausted page yields the error. -/
def get_latest_release (args : Args) : List CatalogRelease → Except Str Release
  | [] => .error noReleaseFound
  | r :: rest =>
    match r.name with
    | none => get_latest_release args rest
    | some n =>
      if startsWith releaseLit n then
        match findAsset args.suffix r.assets with
        | some a => .ok { name := trim n, url := a.browser_download_url }
        | none => get_latest_release args rest
      else get_latest_release args rest

/-- Spec-side qualification predicate (spec §4.2): a release qualifies when it
has a name starting with the literal prefix "Release" and carries at least one
asset whose filename ends with the configured suffix. -/
def releaseQualifies (suffix : Str) (r : CatalogRelease) : Bool :=
  match r.name with
  | none => false
  | some n => startsWith releaseLit n && (r.assets.find? (fun a => endsWith suffix a.name)).isSome

/-- Spec-side formulation of the Release Resolver (spec §4.2): first-found
search, in catalog order, for a (release, asset) pair where the release name
starts with "Release" and the asset filename ends with the suffix; on a match
return the trimmed name and the asset URL, otherwise the no-release error. -/
def spec_resolve (args : Args) (page : List CatalogRelease) : Except Str Release :=
  match page.find? (releaseQualifies args.suffix) with
  | none => .error noReleaseFound
  | some r =>
    match r.name, r.assets.find? (fun a => endsWith args.suffix a.name) with
    | some n, some a => .ok { name := trim n, url := a.browser_download_url }
    | _, _ => .error noReleaseFound


/-! ## Filesystem model -/

/-- Filesystem paths as lists of path components. -/
abbrev Path : Type := List Str

/-- A filesystem node: a regular file with contents and an optional recorded
unix mode, or a directory with an optional recorded unix mode. -/
inductive Node where
  | file (contents : Str) (mode : Option Nat)
  | dir (mode : Option Nat)
deriving DecidableEq

/-- The filesystem: an association list from paths to nodes, newest binding
first (a write shadows older bindings). -/
abbrev FS : Type := List (Path × Node)

/-- Look up the node currently stored at a path. -/
def lookup : FS → Path → Option Node
  | [], _ => none
  | e :: rest, p => if e.1 = p then some e.2 else lookup rest p

/-- Store a node at a path, shadowing any older binding. -/
def setNode (fs : FS) (p : Path) (n : Node) : FS := (p, n) :: fs

/-- fs::set_permissions on an existing node records the mode. -/
def setMode (fs : FS) (p : Path) (m : Nat) : FS :=
  match lookup fs p with
  | some (.file c _) => setNode fs p (.file c (some m))
  | some (.dir _) => setNode fs p (.dir (some m))
  | none => fs

/-- fs::write: create or truncate the file with the given contents (an
existing file keeps its recorded mode; failure modes of the write are
captured by the oracle flag that guards the call). -/
def fsWrite (fs : FS) (p : Path) (c : Str) : FS :=
  match lookup fs p with
  | some (.file _ m) => setNode fs p (.file c m)
  | _ => setNode fs p (.file c none)

/-- fs::remove_dir_all on success: every node at or below the path is gone. -/
def removeTree (fs : FS) (p : Path) : FS :=
  fs.filter (fun e => !(decide (p <+: e.1)))

/-- fs::remove_dir_all on failure: children are removed before the root, so a
failing removal may have deleted an arbitrary subset (chosen by the oracle) of
the nodes strictly below the path, but the root node itself survives. -/
def removeTreePartial (fs : FS) (p : Path) (gone : Path → Bool) : FS :=
  fs.filter (fun e => !(decide (p <+: e.1) && !(decide (e.1 = p)) && gone e.1))

/-- fs::rename of a directory: every node at or below src is rebased to dst. -/
def renameTree (fs : FS) (src dst : Path) : FS :=
  fs.map (fun e => if src <+: e.1 then (dst ++ e.1.drop src.length, e.2) else e)

/-- The io::ErrorKind distinction main.rs makes: NotFound versus anything
else. -/
inductive ErrorKind where
  | notFound
  | other
deriving DecidableEq

/-- fs::read_to_string: when the environment injects no failure, the outcome
is determined by the filesystem: a file yields its exact contents, a directory
yields a non-NotFound error, an absent path yields NotFound.  An injected
failure (permission denied, I/O error) is a non-NotFound error. -/
def read_to_string (fs : FS) (p : Path) (inj : Bool) : Except ErrorKind Str :=
  if inj then .error .other
  else
    match lookup fs p with
    | some (.file c _) => .ok c
    | some (.dir _) => .error .other
    | none => .error .notFound

/-- The name of the version marker file. -/
def versionFile : Str := "version".data

/-- get_installed_version (src/main.rs lines 56-67): read target/version;
Ok with the exact contents on success, Ok with the empty string when the file
is absent, and the error itself in every other case. -/
def get_installed_version (fs : FS) (args : Args) (inj : Bool) : Except ErrorKind Str :=
  match read_to_string fs (args.target ++ [versionFile]) inj with
  | .ok contents => .ok contents
  | .error err => if err = .notFound then .ok [] else .error err

/-! ## Archive extraction -/

/-- An entry of the downloaded zip archive: raw name, decompressed contents,
and optional unix permission mode.  A name ending in a slash marks a
directory entry, as in src/main.rs line 98. -/
structure ZipEntry where
  name : Str
  contents : Str
  unix_mode : Option Nat

/-- Split an entry name into slash-separated components. -/
def splitSlash : Str → List Str
  | [] => [[]]
  | c :: rest =>
    match splitSlash rest with
    | [] => [[c]]
    | s :: ss => if c = '/' then [] :: s :: ss else (c :: s) :: ss

/-- The one-character component ".". -/
def curDirC : Str := ".".data

/-- The two-character component "..". -/
def parentDirC : Str := "..".data

/-- Resolve path components against a stack of already-accepted components:
empty and "." components are dropped, ".." pops the stack and fails when the
stack is empty (the path would escape the root), and any other component is
pushed. -/
def resolveComponents : List Str → List Str → Option (List Str)
  | stack, [] => some stack.reverse
  | stack, c :: rest =>
    if c = [] ∨ c = curDirC then resolveComponents stack rest
    else
      if c = parentDirC then
        match stack with
        | [] => none
        | _ :: s => resolveComponents s rest
      else resolveComponents (c :: stack) rest

/-- Modelled from the spec: the zip library's enclosed_name, called at
src/main.rs line 92 (the library is an external dependency, not part of this
repository), resolves an entry name to a safe relative path and returns none
— so the entry is silently skipped — when the name is absolute or escapes the
extraction root through parent-directory components.  The result is the
resolved list of normal components, relative to the extraction root. -/
def enclosed_name (name : Str) : Option (List Str) :=
  if name.head? = some '/' then none
  else resolveComponents [] (splitSlash name)

/-- The errors `main` can stop with, in the order the corresponding
operations appear in src/main.rs.  permApplyPanic models the unwrap on
fs::set_permissions at line 111, which aborts the run just like a propagated
error does. -/
inductive Err where
  | versionRead
  | catalogQuery
  | noRelease
  | tempfileFailed
  | downloadFailed
  | archiveCorrupt
  | entryFailed (i : Nat)
  | permApplyPanic (i : Nat)
  | stampFailed
  | removeFailed
  | renameFailed
deriving DecidableEq

/-- The outcome the environment assigns to the fallible filesystem work of
one archive entry: failure before the entry's node is written (by_index,
create_dir_all, or File::create failing), failure partway through io::copy
with a partially written file, or success. -/
inductive EntryOutcome where
  | failBefore
  | failPartial (written : Str)
  | ok

/-- The environment of one run: the catalog page the release listing returns,
the entry list of the downloaded archive, and the outcome of every fallible
I/O primitive the program performs, in program order. -/
structure Env where
  readInj : Bool
  catalogOk : Bool
  page : List CatalogRelease
  tempOk : Bool
  downloadOk : Bool
  archive : Except Unit (List ZipEntry)
  entryOutcome : Nat → EntryOutcome
  permOk : Nat → Bool
  stampOk : Bool
  removeOk : Bool
  removeGone : Path → Bool
  renameOk : Bool

/-- Whether an entry is a directory entry (src/main.rs line 98: the raw name
ends with a slash). -/
def isDirEntry (e : ZipEntry) : Bool := endsWith ['/'] e.name

/-- The node a successfully processed entry leaves at its output path: a
directory for a directory entry (create_dir_all at line 99), a file holding
the entry's decompressed bytes otherwise (File::create and io::copy at lines
106-107). -/
def entryNode (e : ZipEntry) : Node :=
  if isDirEntry e then .dir none else .file e.contents none

/-- Extraction of a single archive entry (src/main.rs lines 90-112): skip
entries whose name has no safe resolution; otherwise create the directory or
write the file under the staging root, and afterwards apply the unix mode if
the entry carries one, aborting the run when that application fails. -/
def extractEntry (env : Env) (stagingRoot : Path) (i : Nat) (e : ZipEntry)
    (fs : FS) : FS × Option Err :=
  match enclosed_name e.name with
  | none => (fs, none)
  | some rel =>
    match env.entryOutcome i with
    | .failBefore => (fs, some (.entryFailed i))
    | .failPartial w =>
      if isDirEntry e then (fs, some (.entryFailed i))
      else (setNode fs (stagingRoot ++ rel) (.file w none), some (.entryFailed i))
    | .ok =>
      match e.unix_mode with
      | none => (setNode fs (stagingRoot ++ rel) (entryNode e), none)
      | some m =>
        if env.permOk i then
          (setMode (setNode fs (stagingRoot ++ rel) (entryNode e))
            (stagingRoot ++ rel) m, none)
        else (setNode fs (stagingRoot ++ rel) (entryNode e),
          some (.permApplyPanic i))

/-- The extraction loop over archive entries in order (src/main.rs lines
90-112), stopping at the first failing entry. -/
def extractLoop (env : Env) (stagingRoot : Path) (i : Nat) :
    List ZipEntry → FS → FS × Option Err
  | [], fs => (fs, none)
  | e :: rest, fs =>
    match extractEntry env stagingRoot i e fs with
    | (fs1, some err) => (fs1, some err)
    | (fs1, none) => extractLoop env stagingRoot (i + 1) rest fs1

/-- The component string ".new". -/
def dotNew : Str := ".new".data

/-- The staging directory path: format!("{}.new", target) appends ".new" to
the target path's last component. -/
def targetNewPath : Path → Path
  | [] => [dotNew]
  | [c] => [c ++ dotNew]
  | c :: c2 :: rest => c :: targetNewPath (c2 :: rest)

/-- The result of one run of `main`: the exit result, the final filesystem,
whether the archive download (the reqwest GET at line 83) was issued, and
whether the update branch (the else branch at line 76) was entered. -/
structure RunOut where
  result : Except Err Unit
  fs : FS
  downloaded : Bool
  attempted : Bool

/-- The stamp-remove-rename tail of the update branch (src/main.rs lines
113-115): write the resolved name to staging/version, remove the live tree,
rename staging onto the live path. -/
def finishPhase (env : Env) (args : Args) (name : Str) (fs : FS) :
    Except Err Unit × FS :=
  if env.stampOk then
    let fs1 := fsWrite fs (targetNewPath args.target ++ [versionFile]) name
    if env.removeOk then
      let fs2 := removeTree fs1 args.target
      if env.renameOk then
        (.ok (), renameTree fs2 (targetNewPath args.target) args.target)
      else (.error .renameFailed, fs2)
    else (.error .removeFailed, removeTreePartial fs1 args.target env.removeGone)
  else (.error .stampFailed, fs)

/-- main (src/main.rs lines 69-118): probe the installed version, resolve the
latest release, and either take the no-op path or download, extract into
staging, stamp, and swap. -/
def run (args : Args) (env : Env) (fs0 : FS) : RunOut :=
  match get_installed_version fs0 args env.readInj with
  | .error _ => ⟨.error .versionRead, fs0, false, false⟩
  | .ok installed =>
    if env.catalogOk then
      match get_latest_release args env.page with
      | .error _ => ⟨.error .noRelease, fs0, false, false⟩
      | .ok latest =>
        if installed = latest.name then ⟨.ok (), fs0, false, false⟩
        else
          if env.tempOk then
            if env.downloadOk then
              match env.archive with
              | .error _ => ⟨.error .archiveCorrupt, fs0, true, true⟩
              | .ok entries =>
                match extractLoop env (targetNewPath args.target) 0 entries fs0 with
                | (fs1, some err) => ⟨.error err, fs1, true, true⟩
                | (fs1, none) =>
                  match finishPhase env args latest.name fs1 with
                  | (res, fs2) => ⟨res, fs2, true, true⟩
            else ⟨.error .downloadFailed, fs0, true, true⟩
          else ⟨.error .tempfileFailed, fs0, false, true⟩
    else ⟨.error .catalogQuery, fs0, false, false⟩

/-- The recorded unix mode of a node. -/
def nodeMode : Node → Option Nat
  | .file _ m => m
  | .dir m => m

/-! ## Concrete fixtures for the witness theorems -/

/-- A concrete live installation path. -/
def wTarget : Path := ["brave".data]

/-- Concrete arguments with the default suffix. -/
def wArgs : Args := { target := wTarget, suffix := "-linux-amd64.zip".data }

/-- A one-release catalog page whose release qualifies and has a matching
asset. -/
def wPage : List CatalogRelease :=
  [{ name := some "Release v1".data,
     assets := [{ name := "app-linux-amd64.zip".data,
                  browser_download_url := "u".data }] }]

/-- A filesystem holding only the live installation directory node. -/
def wFS : FS := [(wTarget, .dir none)]

/-- A filesystem whose version marker already holds the resolved name. -/
def wFSv : FS :=
  [(wTarget ++ [versionFile], .file (trim "Release v1".data) none),
   (wTarget, .dir none)]

/-- An environment in which every fallible operation succeeds and the
archive is empty. -/
def wEnv : Env :=
  { readInj := false, catalogOk := true, page := wPage, tempOk := true,
    downloadOk := true, archive := .ok [], entryOutcome := fun _ => .ok,
    permOk := fun _ => true, stampOk := true, removeOk := true,
    removeGone := fun _ => false, renameOk := true }

/-- A path-traversal archive entry. -/
def wEvil : ZipEntry :=
  { name := "../../etc/passwd".data, contents := "x".data, unix_mode := none }

/-- An archive entry carrying a unix permission mode. -/
def wModeEntry : ZipEntry :=
  { name := "bin/app".data, contents := "b".data, unix_mode := some 493 }

/-- An environment whose archive holds the mode-carrying entry and in which
applying permissions fails. -/
def wEnvPermFail : Env :=
  { wEnv with archive := .ok [wModeEntry], permOk := fun _ => false }

/-- An environment whose archive itself extracts a file named "version" into
the staging root. -/
def wEnvV : Env :=
  { wEnv with archive :=
      Except.ok [{ name := "version".data, contents := "EVIL".data,
                   unix_mode := none }] }

lemma findAsset_eq_find? (suffix : Str) (assets : List Asset) :
    findAsset suffix assets = assets.find? (fun a => endsWith suffix a.name) := by
  induction assets with
  | nil => rfl
  | cons a rest ih =>
    simp only [findAsset, List.find?_cons]
    cases h : endsWith suffix a.name <;> simp [h, ih]

lemma trimLeft_release (t : Str) : trimLeft (releaseLit ++ t) = releaseLit ++ t := by
  have h : releaseLit ++ t = 'R' :: ("elease".data ++ t) := rfl
  rw [trimLeft, h, List.dropWhile_cons]
  simp only [show Char.isWhitespace 'R' = false from by decide]
  simp

lemma trimRight_release (t : Str) :
    ∃ t2, trimRight (releaseLit ++ t) = releaseLit ++ t2 := by
  rw [trimRight, List.reverse_append, List.dropWhile_append]
  by_cases he : (t.reverse.dropWhile Char.isWhitespace).isEmpty = true
  · rw [if_pos he]
    refine ⟨[], ?_⟩
    have hc : releaseLit.reverse.dropWhile Char.isWhitespace = releaseLit.reverse := by
      decide
    rw [hc, List.reverse_reverse, List.append_nil]
  · rw [if_neg he, List.reverse_append, List.reverse_reverse]
    exact ⟨_, rfl⟩

lemma trim_release (s : Str) (h : startsWith releaseLit s = true) :
    ∃ t2, trim s = releaseLit ++ t2 := by
  rw [startsWith, decide_eq_true_iff] at h
  obtain ⟨t, rfl⟩ := h
  rw [trim, trimLeft_release]
  exact trimRight_release t

lemma get_latest_release_name_release (args : Args) (page : List CatalogRelease)
    (r : Release) (h : get_latest_release args page = .ok r) :
    startsWith releaseLit r.name = true ∧ r.name ≠ [] := by
  induction page with
  | nil => simp [get_latest_release, noReleaseFound] at h
  | cons cr rest ih =>
    rw [get_latest_release] at h
    split at h
    next => exact ih h
    next n hn =>
      split at h
      next hs =>
        split at h
        next a ha =>
          have hr : r = { name := trim n, url := a.browser_download_url } := by
            cases h
            rfl
          obtain ⟨t2, ht2⟩ := trim_release n hs
          subst hr
          constructor
          · simp only [ht2, startsWith, decide_eq_true_iff]
            exact List.prefix_append _ _
          · simp only [ht2]
            simp [releaseLit]
        next ha => exact ih h
      next hs => exact ih h

/-! ## Filesystem lemmas -/

lemma lookup_cons (e : Path × Node) (fs : FS) (q : Path) :
    lookup (e :: fs) q = if e.1 = q then some e.2 else lookup fs q := rfl

lemma lookup_setNode (fs : FS) (p : Path) (n : Node) (q : Path) :
    lookup (setNode fs p n) q = if p = q then some n else lookup fs q := rfl

lemma lookup_setNode_ne (fs : FS) (p : Path) (n : Node) (q : Path) (h : p ≠ q) :
    lookup (setNode fs p n) q = lookup fs q := by
  rw [lookup_setNode, if_neg h]

lemma lookup_setMode_ne (fs : FS) (p : Path) (m : Nat) (q : Path) (h : p ≠ q) :
    lookup (setMode fs p m) q = lookup fs q := by
  unfold setMode
  cases hl : lookup fs p with
  | none => rfl
  | some n => cases n <;> simp [lookup_setNode_ne _ _ _ _ h]

lemma lookup_fsWrite_ne (fs : FS) (p : Path) (c : Str) (q : Path) (h : p ≠ q) :
    lookup (fsWrite fs p c) q = lookup fs q := by
  unfold fsWrite
  cases hl : lookup fs p with
  | none => simp [lookup_setNode_ne _ _ _ _ h]
  | some n => cases n <;> simp [lookup_setNode_ne _ _ _ _ h]

lemma lookup_fsWrite_self (fs : FS) (p : Path) (c : Str) :
    ∃ m, lookup (fsWrite fs p c) p = some (.file c m) := by
  unfold fsWrite
  cases hl : lookup fs p with
  | none => exact ⟨none, by simp [lookup_setNode]⟩
  | some n =>
    cases n with
    | file c0 m0 => exact ⟨m0, by simp [lookup_setNode]⟩
    | dir m0 => exact ⟨none, by simp [lookup_setNode]⟩

lemma lookup_filter_true (keep : Path → Bool) (fs : FS) (q : Path)
    (h : keep q = true) :
    lookup (fs.filter (fun e => keep e.1)) q = lookup fs q := by
  induction fs with
  | nil => rfl
  | cons e rest ih =>
    rw [List.filter_cons]
    by_cases he : e.1 = q
    · rw [he, h]
      simp only [if_true]
      rw [lookup_cons, lookup_cons, if_pos he, if_pos he]
    · cases hk : keep e.1 <;> simp [lookup_cons, he, ih, hk]

lemma lookup_filter_false (keep : Path → Bool) (fs : FS) (q : Path)
    (h : keep q = false) :
    lookup (fs.filter (fun e => keep e.1)) q = none := by
  induction fs with
  | nil => rfl
  | cons e rest ih =>
    rw [List.filter_cons]
    by_cases he : e.1 = q
    · rw [he, h]
      simp only [Bool.false_eq_true, if_false]
      exact ih
    · cases hk : keep e.1 <;> simp [lookup_cons, he, ih, hk]

lemma lookup_removeTree_in (fs : FS) (p q : Path) (h : p <+: q) :
    lookup (removeTree fs p) q = none := by
  unfold removeTree
  exact lookup_filter_false (fun x => !(decide (p <+: x))) fs q (by simp [h])

lemma lookup_removeTree_out (fs : FS) (p q : Path) (h : ¬ p <+: q) :
    lookup (removeTree fs p) q = lookup fs q := by
  unfold removeTree
  exact lookup_filter_true (fun x => !(decide (p <+: x))) fs q (by simp [h])

lemma lookup_removeTreePartial_self (fs : FS) (p : Path) (gone : Path → Bool) :
    lookup (removeTreePartial fs p gone) p = lookup fs p := by
  unfold removeTreePartial
  exact lookup_filter_true
    (fun x => !(decide (p <+: x) && !(decide (x = p)) && gone x)) fs p (by simp)

lemma lookup_removeTreePartial_out (fs : FS) (p q : Path) (gone : Path → Bool)
    (h : ¬ p <+: q) :
    lookup (removeTreePartial fs p gone) q = lookup fs q := by
  unfold removeTreePartial
  exact lookup_filter_true
    (fun x => !(decide (p <+: x) && !(decide (x = p)) && gone x)) fs q (by simp [h])

lemma removeTree_clean (fs : FS) (p : Path) (e : Path × Node)
    (he : e ∈ removeTree fs p) : ¬ p <+: e.1 := by
  unfold removeTree at he
  have := (List.mem_filter.mp he).2
  simpa using this

lemma lookup_renameTree_to (fs : FS) (src dst : Path) (rest : Path)
    (hclean : ∀ e ∈ fs, ¬ dst <+: e.1) :
    lookup (renameTree fs src dst) (dst ++ rest) = lookup fs (src ++ rest) := by
  induction fs with
  | nil => rfl
  | cons e fs ih =>
    have hcl1 : ¬ dst <+: e.1 := hclean e (List.mem_cons_self e fs)
    have hcl2 : ∀ e2 ∈ fs, ¬ dst <+: e2.1 := fun e2 h2 => hclean e2 (List.mem_cons_of_mem e h2)
    unfold renameTree
    rw [List.map_cons]
    by_cases hsrc : src <+: e.1
    · obtain ⟨tail, htail⟩ := hsrc
      rw [if_pos ⟨tail, htail⟩]
      have hdrop : e.1.drop src.length = tail := by
        rw [← htail, List.drop_left]
      rw [lookup_cons, lookup_cons]
      by_cases heq : tail = rest
      · subst heq
        rw [hdrop]
        rw [if_pos rfl, if_pos htail.symm]
      · rw [hdrop]
        rw [if_neg (fun hcon => heq (List.append_cancel_left hcon)),
          if_neg (fun hcon => heq (by rw [← htail] at hcon; exact List.append_cancel_left hcon))]
        exact ih hcl2
    · rw [if_neg hsrc]
      rw [lookup_cons, lookup_cons]
      rw [if_neg (fun hcon => hcl1 (by rw [hcon]; exact List.prefix_append _ _)),
        if_neg (fun hcon => hsrc (by rw [hcon]; exact List.prefix_append _ _))]
      exact ih hcl2

/-! ## Disjointness of the live and staging paths -/

lemma targetNew_disjoint (t : Path) (ht : t ≠ []) (p : Path)
    (h1 : t <+: p) (h2 : targetNewPath t <+: p) : False := by
  induction t generalizing p with
  | nil => exact ht rfl
  | cons c t ih =>
    cases t with
    | nil =>
      obtain ⟨s1, hs1⟩ := h1
      obtain ⟨s2, hs2⟩ := h2
      rw [show targetNewPath [c] = [c ++ dotNew] from rfl] at hs2
      rw [← hs1] at hs2
      simp only [List.cons_append, List.nil_append, List.cons.injEq] at hs2
      have hlen := congrArg List.length hs2.1
      simp [dotNew] at hlen
    | cons c2 t2 =>
      obtain ⟨s1, hs1⟩ := h1
      obtain ⟨s2, hs2⟩ := h2
      rw [show targetNewPath (c :: c2 :: t2) = c :: targetNewPath (c2 :: t2) from rfl]
        at hs2
      rw [← hs1] at hs2
      simp only [List.cons_append, List.cons.injEq] at hs2
      exact ih (by simp) ((c2 :: t2) ++ s1) ⟨s1, rfl⟩ ⟨s2, hs2.2⟩

lemma target_not_prefix_staging (t : Path) (ht : t ≠ []) (rest : Path) :
    ¬ t <+: (targetNewPath t ++ rest) := by
  intro h
  exact targetNew_disjoint t ht _ h (List.prefix_append _ _)

lemma staging_not_prefix_target (t : Path) (ht : t ≠ []) (p : Path)
    (hp : t <+: p) : ¬ targetNewPath t <+: p := by
  intro h
  exact targetNew_disjoint t ht p hp h

/-! ## Extraction lemmas -/


lemma lookup_setMode_self (fs : FS) (p : Path) (m : Nat) (n0 : Node)
    (h : lookup fs p = some n0) :
    ∃ n, lookup (setMode fs p m) p = some n ∧ nodeMode n = some m := by
  unfold setMode
  rw [h]
  cases n0 with
  | file c m0 => exact ⟨.file c (some m), by simp [lookup_setNode], rfl⟩
  | dir m0 => exact ⟨.dir (some m), by simp [lookup_setNode], rfl⟩

lemma extractEntry_skip (env : Env) (sr : Path) (i : Nat) (e : ZipEntry)
    (fs : FS) (hm : enclosed_name e.name = none) :
    extractEntry env sr i e fs = (fs, none) := by
  simp [extractEntry, hm]

lemma extractEntry_frame (env : Env) (sr : Path) (i : Nat) (e : ZipEntry)
    (fs : FS) (p : Path) (hp : ¬ sr <+: p) :
    lookup (extractEntry env sr i e fs).1 p = lookup fs p := by
  have hpa : ∀ (rel : List Str), sr ++ rel ≠ p := by
    intro rel hcon
    exact hp (hcon ▸ List.prefix_append sr rel)
  unfold extractEntry
  cases hm : enclosed_name e.name with
  | none => rfl
  | some rel =>
    cases ho : env.entryOutcome i with
    | failBefore => rfl
    | failPartial w =>
      by_cases hd : isDirEntry e = true
      · simp [hd]
      · simp only [Bool.not_eq_true] at hd
        simp [hd, lookup_setNode_ne _ _ _ _ (hpa rel)]
    | ok =>
      cases hu : e.unix_mode with
      | none => simp [lookup_setNode_ne _ _ _ _ (hpa rel)]
      | some m =>
        by_cases hpm : env.permOk i = true
        · simp only [hpm, if_true]
          rw [lookup_setMode_ne _ _ _ _ (hpa rel),
            lookup_setNode_ne _ _ _ _ (hpa rel)]
        · simp only [Bool.not_eq_true] at hpm
          simp [hpm, lookup_setNode_ne _ _ _ _ (hpa rel)]

lemma extractLoop_frame (env : Env) (sr : Path) (entries : List ZipEntry)
    (i : Nat) (fs : FS) (p : Path) (hp : ¬ sr <+: p) :
    lookup (extractLoop env sr i entries fs).1 p = lookup fs p := by
  induction entries generalizing i fs with
  | nil => rfl
  | cons e rest ih =>
    have hfr := extractEntry_frame env sr i e fs p hp
    unfold extractLoop
    cases hE : extractEntry env sr i e fs with
    | mk fs1 oerr =>
      rw [hE] at hfr
      cases oerr with
      | some err => exact hfr
      | none => rw [ih (i + 1) fs1, hfr]

lemma extractEntry_mode_applied (env : Env) (sr : Path) (i : Nat)
    (e : ZipEntry) (fs : FS) (rel : List Str) (m : Nat)
    (hm : enclosed_name e.name = some rel) (hmo : e.unix_mode = some m)
    (ho : env.entryOutcome i = .ok) (hperm : env.permOk i = true) :
    (extractEntry env sr i e fs).2 = none ∧
      ∃ n, lookup (extractEntry env sr i e fs).1 (sr ++ rel) = some n ∧
        nodeMode n = some m := by
  simp only [extractEntry, hm, ho, hmo, hperm, if_true]
  refine ⟨trivial, ?_⟩
  exact lookup_setMode_self _ _ _ (entryNode e) (by simp [lookup_setNode])

lemma extractEntry_perm_fatal (env : Env) (sr : Path) (i : Nat)
    (e : ZipEntry) (fs : FS) (rel : List Str) (m : Nat)
    (hm : enclosed_name e.name = some rel) (hmo : e.unix_mode = some m)
    (ho : env.entryOutcome i = .ok) (hperm : env.permOk i = false) :
    (extractEntry env sr i e fs).2 = some (.permApplyPanic i) := by
  simp [extractEntry, hm, ho, hmo, hperm]

/-! ## Run-level helper lemmas -/

lemma run_version_error (args : Args) (env : Env) (fs0 : FS) (k : ErrorKind)
    (hread : read_to_string fs0 (args.target ++ [versionFile]) env.readInj = .error k)
    (hk : k ≠ .notFound) :
    run args env fs0 = ⟨.error .versionRead, fs0, false, false⟩ := by
  have hgi : get_installed_version fs0 args env.readInj = .error k := by
    simp only [get_installed_version, hread, if_neg hk]
  simp [run, hgi]

lemma run_noop (args : Args) (env : Env) (fs0 : FS) (v : Str) (r : Release)
    (hgi : get_installed_version fs0 args env.readInj = .ok v)
    (hcat : env.catalogOk = true)
    (hres : get_latest_release args env.page = .ok r)
    (heq : v = r.name) :
    run args env fs0 = ⟨.ok (), fs0, false, false⟩ := by
  simp [run, hgi, hcat, hres, heq]

lemma run_attempted (args : Args) (env : Env) (fs0 : FS) (v : Str) (r : Release)
    (hgi : get_installed_version fs0 args env.readInj = .ok v)
    (hcat : env.catalogOk = true)
    (hres : get_latest_release args env.page = .ok r)
    (hne : v ≠ r.name) :
    (run args env fs0).attempted = true := by
  simp only [run, hgi, hcat, hres, if_true, if_neg hne]
  cases htmp : env.tempOk
  · simp
  · cases hdl : env.downloadOk
    · simp
    · cases har : env.archive with
      | error u => simp
      | ok entries =>
        simp only
        cases hloop : extractLoop env (targetNewPath args.target) 0 entries fs0 with
        | mk fs1 oerr =>
          cases oerr with
          | some err => simp
          | none =>
            simp only
            cases hfin : finishPhase env args r.name fs1 with
            | mk res fs2 => simp

lemma run_error_frame (args : Args) (env : Env) (fs0 : FS) (e : Err)
    (ht : args.target ≠ [])
    (herr : (run args env fs0).result = .error e)
    (h1 : e ≠ .removeFailed) (h2 : e ≠ .renameFailed)
    (p : Path) (hp : args.target <+: p) :
    lookup (run args env fs0).fs p = lookup fs0 p := by
  have hnp : ¬ targetNewPath args.target <+: p :=
    staging_not_prefix_target _ ht _ hp
  cases hgi : get_installed_version fs0 args env.readInj with
  | error k => simp [run, hgi]
  | ok v =>
    cases hcat : env.catalogOk with
    | false => simp [run, hgi, hcat]
    | true =>
      cases hgll : get_latest_release args env.page with
      | error msg => simp [run, hgi, hcat, hgll]
      | ok r =>
        by_cases hv : v = r.name
        · simp [run, hgi, hcat, hgll, hv] at herr
        · simp only [run, hgi, hcat, hgll, if_true, if_neg hv] at herr ⊢
          cases htmp : env.tempOk with
          | false => simp [htmp] at herr ⊢
          | true =>
            cases hdl : env.downloadOk with
            | false => simp [htmp, hdl] at herr ⊢
            | true =>
              cases har : env.archive with
              | error u => simp [htmp, hdl, har] at herr ⊢
              | ok entries =>
                simp only [htmp, hdl, har, if_true] at herr ⊢
                have hfr := extractLoop_frame env (targetNewPath args.target)
                  entries 0 fs0 p hnp
                generalize hE : extractLoop env (targetNewPath args.target) 0 entries fs0 = out
                  at herr hfr ⊢
                obtain ⟨fs1, oerr⟩ := out
                simp only at hfr
                cases oerr with
                | some err =>
                  simp only at herr ⊢
                  exact hfr
                | none =>
                  cases hst : env.stampOk with
                  | false =>
                    simp [finishPhase, hst] at herr ⊢
                    exact hfr
                  | true =>
                    cases hrm : env.removeOk with
                    | false =>
                      simp [finishPhase, hst, hrm] at herr
                      exact absurd herr.symm h1
                    | true =>
                      cases hrn : env.renameOk with
                      | false =>
                        simp [finishPhase, hst, hrm, hrn] at herr
                        exact absurd herr.symm h2
                      | true =>
                        simp [finishPhase, hst, hrm, hrn] at herr

lemma run_success_update (args : Args) (env : Env) (fs0 : FS) (v : Str)
    (r : Release) (ht : args.target ≠ [])
    (hgi : get_installed_version fs0 args env.readInj = .ok v)
    (hcat : env.catalogOk = true)
    (hres : get_latest_release args env.page = .ok r)
    (hne : v ≠ r.name)
    (hok : (run args env fs0).result = .ok ()) :
    ∃ m, lookup (run args env fs0).fs (args.target ++ [versionFile]) =
      some (.file r.name m) := by
  simp only [run, hgi, hcat, hres, if_true, if_neg hne] at hok ⊢
  cases htmp : env.tempOk with
  | false => simp [htmp] at hok
  | true =>
    cases hdl : env.downloadOk with
    | false => simp [htmp, hdl] at hok
    | true =>
      cases har : env.archive with
      | error u => simp [htmp, hdl, har] at hok
      | ok entries =>
        simp only [htmp, hdl, har, if_true] at hok ⊢
        generalize hE : extractLoop env (targetNewPath args.target) 0 entries fs0 = out
          at hok ⊢
        obtain ⟨fs1, oerr⟩ := out
        cases oerr with
        | some err => simp at hok
        | none =>
          cases hst : env.stampOk with
          | false => simp [finishPhase, hst] at hok
          | true =>
            cases hrm : env.removeOk with
            | false => simp [finishPhase, hst, hrm] at hok
            | true =>
              cases hrn : env.renameOk with
              | false => simp [finishPhase, hst, hrm, hrn] at hok
              | true =>
                simp only [finishPhase, hst, hrm, hrn, if_true]
                obtain ⟨m, hm⟩ := lookup_fsWrite_self fs1
                  (targetNewPath args.target ++ [versionFile]) r.name
                refine ⟨m, ?_⟩
                rw [lookup_renameTree_to _ _ _ [versionFile]
                  (fun e he => removeTree_clean _ _ e he)]
                rw [lookup_removeTree_out _ _ _
                  (target_not_prefix_staging args.target ht [versionFile])]
                exact hm

lemma run_live_lost (args : Args) (env : Env) (fs0 : FS) (n0 : Node)
    (ht : args.target ≠ [])
    (hn : lookup fs0 args.target = some n0)
    (hout : (run args env fs0).result ≠ .error .renameFailed) :
    ∃ p, args.target <+: p ∧ lookup (run args env fs0).fs p ≠ none := by
  have htself : args.target <+: args.target := List.prefix_refl _
  have hnts : ¬ targetNewPath args.target <+: args.target :=
    staging_not_prefix_target _ ht _ htself
  have hvne : targetNewPath args.target ++ [versionFile] ≠ args.target := by
    intro hcon
    exact target_not_prefix_staging args.target ht [versionFile] (by rw [hcon])
  cases hgi : get_installed_version fs0 args env.readInj with
  | error k =>
    refine ⟨args.target, htself, ?_⟩
    simp [run, hgi, hn]
  | ok v =>
    cases hcat : env.catalogOk with
    | false =>
      refine ⟨args.target, htself, ?_⟩
      simp [run, hgi, hcat, hn]
    | true =>
      cases hgll : get_latest_release args env.page with
      | error msg =>
        refine ⟨args.target, htself, ?_⟩
        simp [run, hgi, hcat, hgll, hn]
      | ok r =>
        by_cases hv : v = r.name
        · refine ⟨args.target, htself, ?_⟩
          simp [run, hgi, hcat, hgll, hv, hn]
        · simp only [run, hgi, hcat, hgll, if_true, if_neg hv] at hout ⊢
          cases htmp : env.tempOk with
          | false =>
            refine ⟨args.target, htself, ?_⟩
            simp [htmp, hn]
          | true =>
            cases hdl : env.downloadOk with
            | false =>
              refine ⟨args.target, htself, ?_⟩
              simp [htmp, hdl, hn]
            | true =>
              cases har : env.archive with
              | error u =>
                refine ⟨args.target, htself, ?_⟩
                simp [htmp, hdl, har, hn]
              | ok entries =>
                simp only [htmp, hdl, har, if_true] at hout ⊢
                have hfr := extractLoop_frame env (targetNewPath args.target)
                  entries 0 fs0 args.target hnts
                generalize hE : extractLoop env (targetNewPath args.target) 0 entries fs0 = out
                  at hout hfr ⊢
                obtain ⟨fs1, oerr⟩ := out
                simp only at hfr
                have hfs1 : lookup fs1 args.target = some n0 := by
                  rw [hfr, hn]
                cases oerr with
                | some err =>
                  refine ⟨args.target, htself, ?_⟩
                  simp [hfs1]
                | none =>
                  cases hst : env.stampOk with
                  | false =>
                    refine ⟨args.target, htself, ?_⟩
                    simp [finishPhase, hst, hfs1]
                  | true =>
                    have hw : lookup (fsWrite fs1
                        (targetNewPath args.target ++ [versionFile]) r.name)
                        args.target = some n0 := by
                      rw [lookup_fsWrite_ne _ _ _ _ hvne, hfs1]
                    cases hrm : env.removeOk with
                    | false =>
                      refine ⟨args.target, htself, ?_⟩
                      simp only [finishPhase, hst, hrm, if_true,
                        Bool.false_eq_true, if_false]
                      simp only [lookup_removeTreePartial_self, hw]
                      simp
                    | true =>
                      cases hrn : env.renameOk with
                      | false =>
                        exact absurd (by simp [finishPhase, hst, hrm, hrn]) hout
                      | true =>
                        refine ⟨args.target ++ [versionFile],
                          List.prefix_append _ _, ?_⟩
                        simp only [finishPhase, hst, hrm, hrn, if_true]
                        obtain ⟨m, hm⟩ := lookup_fsWrite_self fs1
                          (targetNewPath args.target ++ [versionFile]) r.name
                        rw [lookup_renameTree_to _ _ _ [versionFile]
                          (fun e he => removeTree_clean _ _ e he)]
                        rw [lookup_removeTree_out _ _ _
                          (target_not_prefix_staging args.target ht [versionFile])]
                        simp [hm]

/-! ## Claim theorems -/

/-- C2: the Release Resolver iterates releases in catalog order, skips every
release whose name does not start with the literal prefix "Release", selects
the first qualifying (release, asset) pair where the asset filename ends with
the configured suffix, returns the release's whitespace-trimmed name and that
asset's download URL, and fails with the "No Release Found" error after
exhausting the page: get_latest_release coincides with the spec-side
first-found resolver. -/
theorem C2_resolver_first_found (args : Args) (page : List CatalogRelease) :
    get_latest_release args page = spec_resolve args page := by
  induction page with
  | nil => rfl
  | cons r rest ih =>
    cases hn : r.name with
    | none =>
      simp only [get_latest_release, hn, ih, spec_resolve, List.find?_cons,
        releaseQualifies]
    | some n =>
      cases hs : startsWith releaseLit n with
      | false =>
        simp only [get_latest_release, hn, hs, ih, spec_resolve, List.find?_cons,
          releaseQualifies]
        simp
      | true =>
        cases ha : findAsset args.suffix r.assets with
        | none =>
          rw [findAsset_eq_find?] at ha
          simp only [get_latest_release, hn, hs, ha, ih, spec_resolve,
            List.find?_cons, releaseQualifies, findAsset_eq_find?]
          simp [ha]
        | some a =>
          rw [findAsset_eq_find?] at ha
          simp only [get_latest_release, hn, hs, spec_resolve,
            List.find?_cons, releaseQualifies, findAsset_eq_find?, ha]
          simp [ha, hn]

/-- C10: a release whose name is absent (octocrab's Option name is None) is
skipped by the resolver no matter which assets it carries: the result on a
page starting with such a release is the result on the rest of the page, so
the nameless release can never be selected. -/
theorem C10_nameless_release_skipped (args : Args) (assets : List Asset)
    (rest : List CatalogRelease) :
    get_latest_release args ({ name := none, assets := assets } :: rest) =
      get_latest_release args rest := by
  rfl

/-- C1: in any run, a failure other than a failure of the live-directory
removal step itself or of the rename step leaves every path at or under the
live installation directory, its version file included, exactly as it was;
and the only way the live installation directory can be missing entirely
after the run is that the removal succeeded and the subsequent rename
failed. -/
theorem C1_live_dir_safety (args : Args) (env : Env) (fs0 : FS)
    (ht : args.target ≠ []) :
    (∀ e, (run args env fs0).result = .error e → e ≠ .removeFailed →
      e ≠ .renameFailed → ∀ p, args.target <+: p →
        lookup (run args env fs0).fs p = lookup fs0 p) ∧
    (∀ n0, lookup fs0 args.target = some n0 →
      (∀ p, args.target <+: p → lookup (run args env fs0).fs p = none) →
      (run args env fs0).result = .error .renameFailed) := by
  constructor
  · exact fun e herr h1 h2 p hp =>
      run_error_frame args env fs0 e ht herr h1 h2 p hp
  · intro n0 hn hmiss
    by_contra hcon
    obtain ⟨p, hp, hnone⟩ := run_live_lost args env fs0 n0 ht hn hcon
    exact hnone (hmiss p hp)

/-- Witness for C1: at a concrete run whose tempfile creation fails — a
failure strictly before the removal — the live directory node is untouched. -/
theorem C1_witness :
    lookup (run wArgs { wEnv with tempOk := false } wFS).fs wTarget =
      lookup wFS wTarget :=
  (C1_live_dir_safety wArgs { wEnv with tempOk := false } wFS (by decide)).1
    .tempfileFailed (by rfl) (by decide) (by decide) wTarget (by decide)

/-- C3: an archive entry whose name has no safe resolution inside the staging
directory is silently skipped — the filesystem is unchanged and no error is
raised — and extraction, of one entry or of a whole entry list, never changes
any path outside the staging root. -/
theorem C3_path_traversal_safety (env : Env) (sr : Path) (i j : Nat)
    (e : ZipEntry) (entries : List ZipEntry) (fs : FS) :
    (enclosed_name e.name = none → extractEntry env sr i e fs = (fs, none)) ∧
    (∀ p, ¬ sr <+: p → lookup (extractEntry env sr i e fs).1 p = lookup fs p) ∧
    (∀ p, ¬ sr <+: p →
      lookup (extractLoop env sr j entries fs).1 p = lookup fs p) := by
  refine ⟨fun hm => extractEntry_skip env sr i e fs hm,
    fun p hp => extractEntry_frame env sr i e fs p hp,
    fun p hp => extractLoop_frame env sr entries j fs p hp⟩

/-- Witness for C3: the entry named "../../etc/passwd" is skipped with the
filesystem unchanged, and the path it aimed at is untouched. -/
theorem C3_witness :
    extractEntry wEnv (targetNewPath wTarget) 0 wEvil wFS = (wFS, none) ∧
    lookup (extractEntry wEnv (targetNewPath wTarget) 0 wEvil wFS).1
      ["etc".data, "passwd".data] = lookup wFS ["etc".data, "passwd".data] :=
  ⟨(C3_path_traversal_safety wEnv (targetNewPath wTarget) 0 0 wEvil [] wFS).1
      (by rfl),
   (C3_path_traversal_safety wEnv (targetNewPath wTarget) 0 0 wEvil [] wFS).2.1
      ["etc".data, "passwd".data] (by decide)⟩

/-- C4: after a successful update to a release whose trimmed name is N,
reading the live version marker yields exactly N, and a second run against
the same catalog state with a healthy version read compares equal and takes
the no-op path, leaving the filesystem untouched and downloading nothing. -/
theorem C4_version_round_trip (args : Args) (env : Env) (fs0 : FS) (v : Str)
    (r : Release) (ht : args.target ≠ [])
    (hgi : get_installed_version fs0 args env.readInj = .ok v)
    (hcat : env.catalogOk = true)
    (hres : get_latest_release args env.page = .ok r)
    (hne : v ≠ r.name)
    (hok : (run args env fs0).result = .ok ()) :
    read_to_string (run args env fs0).fs (args.target ++ [versionFile]) false =
      .ok r.name ∧
    ∀ env2 : Env, env2.readInj = false → env2.catalogOk = true →
      env2.page = env.page →
      run args env2 (run args env fs0).fs =
        ⟨.ok (), (run args env fs0).fs, false, false⟩ := by
  obtain ⟨m, hm⟩ := run_success_update args env fs0 v r ht hgi hcat hres hne hok
  have hread : read_to_string (run args env fs0).fs
      (args.target ++ [versionFile]) false = .ok r.name := by
    simp [read_to_string, hm]
  refine ⟨hread, fun env2 h2i h2c h2p => ?_⟩
  have hgi2 : get_installed_version (run args env fs0).fs args env2.readInj =
      .ok r.name := by
    simp only [get_installed_version, h2i, hread]
  exact run_noop args env2 _ r.name r hgi2 h2c (by rw [h2p]; exact hres) rfl

/-- Witness for C4: a concrete successful update writes the trimmed release
name to the live marker and the follow-up run is a no-op. -/
theorem C4_witness :
    read_to_string (run wArgs wEnv wFS).fs (wTarget ++ [versionFile]) false =
      .ok (trim "Release v1".data) ∧
    run wArgs wEnv (run wArgs wEnv wFS).fs =
      ⟨.ok (), (run wArgs wEnv wFS).fs, false, false⟩ := by
  have h := C4_version_round_trip wArgs wEnv wFS []
    { name := trim "Release v1".data, url := "u".data } (by decide) (by rfl)
    (by rfl) (by rfl) (by decide) (by rfl)
  exact ⟨h.1, h.2 wEnv rfl rfl rfl⟩

/-- C5: when the installed version string equals the resolved release's
trimmed name, the run succeeds on the no-op path: no download is issued and
the whole filesystem — the live installation directory and its version file
included — is returned byte for byte unchanged. -/
theorem C5_noop_frame (args : Args) (env : Env) (fs0 : FS) (v : Str)
    (r : Release)
    (hgi : get_installed_version fs0 args env.readInj = .ok v)
    (hcat : env.catalogOk = true)
    (hres : get_latest_release args env.page = .ok r)
    (heq : v = r.name) :
    run args env fs0 = ⟨.ok (), fs0, false, false⟩ :=
  run_noop args env fs0 v r hgi hcat hres heq

/-- Witness for C5: a concrete run whose marker already holds the resolved
name is a no-op with the filesystem returned unchanged. -/
theorem C5_witness : run wArgs wEnv wFSv = ⟨.ok (), wFSv, false, false⟩ :=
  C5_noop_frame wArgs wEnv wFSv (trim "Release v1".data)
    { name := trim "Release v1".data, url := "u".data } (by rfl) rfl (by rfl) rfl

/-- C6: the version probe returns the exact stored contents of target/version
on a successful read, the empty string without error when the marker is
absent, and on any other filesystem failure the error is fatal: the run stops
before the update decision with the filesystem untouched, nothing downloaded
and no update attempted. -/
theorem C6_version_probe (args : Args) (env : Env) (fs0 : FS) :
    (∀ c m, env.readInj = false →
      lookup fs0 (args.target ++ [versionFile]) = some (.file c m) →
      get_installed_version fs0 args env.readInj = .ok c) ∧
    (env.readInj = false → lookup fs0 (args.target ++ [versionFile]) = none →
      get_installed_version fs0 args env.readInj = .ok []) ∧
    (∀ k, read_to_string fs0 (args.target ++ [versionFile]) env.readInj =
        .error k → k ≠ .notFound →
      run args env fs0 = ⟨.error .versionRead, fs0, false, false⟩) := by
  refine ⟨?_, ?_, ?_⟩
  · intro c m hinj hl
    simp [get_installed_version, read_to_string, hinj, hl]
  · intro hinj hl
    simp [get_installed_version, read_to_string, hinj, hl]
  · exact fun k hk hkn => run_version_error args env fs0 k hk hkn

/-- Witness for C6: the probe returns the stored marker exactly, returns the
empty string when the marker is absent, and an injected read failure stops a
concrete run before the update decision. -/
theorem C6_witness :
    get_installed_version wFSv wArgs false = .ok (trim "Release v1".data) ∧
    get_installed_version wFS wArgs false = .ok [] ∧
    run wArgs { wEnv with readInj := true } wFS =
      ⟨.error .versionRead, wFS, false, false⟩ :=
  ⟨(C6_version_probe wArgs wEnv wFSv).1 (trim "Release v1".data) none rfl
      (by rfl),
   (C6_version_probe wArgs wEnv wFS).2.1 rfl (by rfl),
   (C6_version_probe wArgs { wEnv with readInj := true } wFS).2.2 .other
      (by rfl) (by decide)⟩

/-- C7: when the version marker does not exist, the probe yields the empty
string; every successfully resolved release name starts with "Release" even
after trimming and is therefore nonempty, hence unequal to the empty
installed version; so the run enters the update branch. -/
theorem C7_missing_marker_updates (args : Args) (env : Env) (fs0 : FS)
    (r : Release)
    (hl : lookup fs0 (args.target ++ [versionFile]) = none)
    (hinj : env.readInj = false)
    (hcat : env.catalogOk = true)
    (hres : get_latest_release args env.page = .ok r) :
    get_installed_version fs0 args env.readInj = .ok [] ∧
    startsWith releaseLit r.name = true ∧ r.name ≠ [] ∧
    (run args env fs0).attempted = true := by
  have hgi : get_installed_version fs0 args env.readInj = .ok [] := by
    simp [get_installed_version, read_to_string, hinj, hl]
  obtain ⟨hsw, hne⟩ := get_latest_release_name_release args env.page r hres
  refine ⟨hgi, hsw, hne, ?_⟩
  exact run_attempted args env fs0 [] r hgi hcat hres (fun hcon => hne hcon.symm)

/-- Witness for C7: a concrete run with no marker probes the empty string,
resolves a "Release"-prefixed nonempty name, and attempts the update. -/
theorem C7_witness :
    get_installed_version wFS wArgs wEnv.readInj = .ok [] ∧
    startsWith releaseLit (trim "Release v1".data) = true ∧
    trim "Release v1".data ≠ [] ∧
    (run wArgs wEnv wFS).attempted = true :=
  C7_missing_marker_updates wArgs wEnv wFS
    { name := trim "Release v1".data, url := "u".data } (by rfl) rfl rfl (by rfl)

/-- C8: an entry carrying a unix mode has that mode recorded on its output
node after the entry's data is written; a failure to apply the mode aborts
the entry with the permission panic; and when a run stops with that panic the
remaining extraction, the stamping and the swap never happened — every live
path is untouched. -/
theorem C8_permission_apply (env : Env) (sr : Path) (i : Nat) (e : ZipEntry)
    (fs : FS) (rel : List Str) (m : Nat) (args : Args) (fs0 : FS) :
    (enclosed_name e.name = some rel → e.unix_mode = some m →
      env.entryOutcome i = .ok → env.permOk i = true →
      (extractEntry env sr i e fs).2 = none ∧
      ∃ n, lookup (extractEntry env sr i e fs).1 (sr ++ rel) = some n ∧
        nodeMode n = some m) ∧
    (enclosed_name e.name = some rel → e.unix_mode = some m →
      env.entryOutcome i = .ok → env.permOk i = false →
      (extractEntry env sr i e fs).2 = some (.permApplyPanic i)) ∧
    (args.target ≠ [] →
      (run args env fs0).result = .error (.permApplyPanic i) →
      ∀ p, args.target <+: p →
        lookup (run args env fs0).fs p = lookup fs0 p) := by
  refine ⟨fun hm hmo ho hp =>
      extractEntry_mode_applied env sr i e fs rel m hm hmo ho hp,
    fun hm hmo ho hp =>
      extractEntry_perm_fatal env sr i e fs rel m hm hmo ho hp,
    fun ht herr p hp =>
      run_error_frame args env fs0 (.permApplyPanic i) ht herr
        (fun hcon => Err.noConfusion hcon) (fun hcon => Err.noConfusion hcon)
        p hp⟩

/-- Witness for C8: a concrete mode-carrying entry gets its mode recorded on
success; with permission application failing, the entry aborts with the
panic and a concrete run stopping there leaves the live directory
untouched. -/
theorem C8_witness :
    ((extractEntry wEnv (targetNewPath wTarget) 0 wModeEntry wFS).2 = none ∧
      ∃ n, lookup (extractEntry wEnv (targetNewPath wTarget) 0 wModeEntry wFS).1
        (targetNewPath wTarget ++ ["bin".data, "app".data]) = some n ∧
        nodeMode n = some 493) ∧
    (extractEntry wEnvPermFail (targetNewPath wTarget) 0 wModeEntry wFS).2 =
      some (.permApplyPanic 0) ∧
    lookup (run wArgs wEnvPermFail wFS).fs wTarget = lookup wFS wTarget :=
  ⟨(C8_permission_apply wEnv (targetNewPath wTarget) 0 wModeEntry wFS
      ["bin".data, "app".data] 493 wArgs wFS).1 (by rfl) rfl rfl rfl,
   (C8_permission_apply wEnvPermFail (targetNewPath wTarget) 0 wModeEntry wFS
      ["bin".data, "app".data] 493 wArgs wFS).2.1 (by rfl) rfl rfl rfl,
   (C8_permission_apply wEnvPermFail (targetNewPath wTarget) 0 wModeEntry wFS
      ["bin".data, "app".data] 493 wArgs wFS).2.2 (by decide) (by rfl) wTarget
      (by decide)⟩

/-- C9: after any successful update — whatever the archive's entries were,
including an entry that itself extracted a file named "version" into the
staging root — the live version marker holds exactly the resolved release's
trimmed name, because the stamp overwrites the staging version file after
extraction and before the swap. -/
theorem C9_stamp_overwrites (args : Args) (env : Env) (fs0 : FS) (v : Str)
    (r : Release) (ht : args.target ≠ [])
    (hgi : get_installed_version fs0 args env.readInj = .ok v)
    (hcat : env.catalogOk = true)
    (hres : get_latest_release args env.page = .ok r)
    (hne : v ≠ r.name)
    (hok : (run args env fs0).result = .ok ()) :
    read_to_string (run args env fs0).fs (args.target ++ [versionFile]) false =
      .ok r.name := by
  obtain ⟨m, hm⟩ := run_success_update args env fs0 v r ht hgi hcat hres hne hok
  simp [read_to_string, hm]

/-- Witness for C9: a concrete successful update whose archive extracts a
"version" file holding different bytes still ends with the live marker equal
to the resolved trimmed name. -/
theorem C9_witness :
    read_to_string (run wArgs wEnvV wFS).fs (wTarget ++ [versionFile]) false =
      .ok (trim "Release v1".data) :=
  C9_stamp_overwrites wArgs wEnvV wFS []
    { name := trim "Release v1".data, url := "u".data } (by decide) (by rfl)
    rfl (by rfl) (by decide) (by rfl)

end UpdateBrave
